import Mathlib

/-!
# Verification of the subtitle segmentation and timing engine

Shallow embedding of the cue-segmentation / timeline-composition core of the
N8N_YT_SHORTS_GENERATOR repository (files `subtitle_service.py`, `main.py`,
`enhanced_subtitle_service.py`, `word_sync_service.py`).

Python strings are modelled as lists of characters (`Str`), seconds as
rationals (`ℚ`).  Python `str.strip()`, `str.split()` and `' '.join` are
modelled by `pyStrip`, `pySplit` and `joinSp`.
-/

namespace YTShorts

/-- A Python string, modelled as its list of characters. -/
abbrev Str := List Char

/-- Python `str.strip()`: drop leading and trailing whitespace. -/
def pyStrip (s : Str) : Str :=
  ((s.dropWhile Char.isWhitespace).reverse.dropWhile Char.isWhitespace).reverse

/-- Python `str.split()` with no argument: maximal runs of non-whitespace
characters, in order. -/
def pySplit (s : Str) : List Str :=
  (s.splitOnP Char.isWhitespace).filter (fun t => !t.isEmpty)

/-- Python `' '.join(ts)`. -/
def joinSp (ts : List Str) : Str :=
  List.intercalate [' '] ts

/-- A subtitle segment dictionary `{'start': …, 'end': …, 'text': …}`. -/
structure Seg where
  start : ℚ
  «end» : ℚ
  text : Str
deriving DecidableEq, Repr

/-- `main.py scale_segments_to_duration`: the estimated total duration is the
`end` of the last segment (`0` when there is none). -/
def estimatedDuration (segments : List Seg) : ℚ :=
  match segments.getLast? with
  | some s => s.«end»
  | none => 0

/-- `main.py scale_segments_to_duration(segments, target_duration)`. -/
def scale_segments_to_duration (segments : List Seg) (target_duration : ℚ) :
    List Seg :=
  if segments.isEmpty then segments
  else
    let estimated_duration := estimatedDuration segments
    if estimated_duration ≤ 0 then segments
    else
      let scale_factor := target_duration / estimated_duration
      segments.map fun s =>
        { start := s.start * scale_factor
          «end» := s.«end» * scale_factor
          text := s.text }

/-- The clipping step of `main.py create_synchronized_subtitles`
(lines 839-851): keep a segment only if `start < total_duration`, truncate
`end` to `total_duration`, and keep only segments with `end > start` after
truncation. -/
def clip_segments (segments : List Seg) (total_duration : ℚ) : List Seg :=
  segments.filterMap fun seg =>
    if seg.start < total_duration then
      let e := if total_duration < seg.«end» then total_duration else seg.«end»
      if seg.start < e then some { seg with «end» := e } else none
    else none

/-- The minimum-cue-duration pass of `main.py create_synchronized_subtitles`
(lines 800-804 / 817-821): a segment shorter than `0.5` s gets its `end`
moved to `start + 0.5`. -/
def enforce_min_duration (segments : List Seg) : List Seg :=
  segments.map fun seg =>
    if seg.«end» - seg.start < 1/2 then { seg with «end» := seg.start + 1/2 }
    else seg

/-- A word dictionary `{'word': …, 'start': …, 'end': …}` as consumed by
`subtitle_service.py split_segment_by_words`. -/
structure WordT where
  word : Str
  start : ℚ
  «end» : ℚ
deriving DecidableEq, Repr

/-- The accumulator of `split_segment_by_words`: `current_text`,
`current_start`, `current_end`, `word_count` (the `current_start is None`
state is the `none` of the surrounding `Option`). -/
structure SegAcc where
  text : Str
  start : ℚ
  stop : ℚ
  count : ℕ
deriving DecidableEq, Repr

/-- Emission step of `split_segment_by_words`: append the accumulated segment
if its stripped text is non-empty. -/
def flushAcc (a : SegAcc) : List Seg :=
  if (pyStrip a.text).isEmpty then [] else [⟨a.start, a.stop, pyStrip a.text⟩]

/-- The loop of `subtitle_service.py split_segment_by_words`. -/
def sswAux (max_chars : ℕ) (max_duration : ℚ) (max_words : ℕ) :
    Option SegAcc → List WordT → List Seg
  | none, [] => []
  | some a, [] => flushAcc a
  | acc, w :: ws =>
    let word := pyStrip w.word
    if word.isEmpty then sswAux max_chars max_duration max_words acc ws
    else
      match acc with
      | none =>
          sswAux max_chars max_duration max_words
            (some ⟨word, w.start, w.«end», 1⟩) ws
      | some a =>
          let test_text := a.text ++ ' ' :: word
          let test_duration := w.«end» - a.start
          if max_words ≤ a.count ∨ max_chars < test_text.length ∨
              max_duration < test_duration then
            flushAcc a ++ sswAux max_chars max_duration max_words
              (some ⟨word, w.start, w.«end», 1⟩) ws
          else
            sswAux max_chars max_duration max_words
              (some ⟨test_text, a.start, w.«end», a.count + 1⟩) ws

/-- `subtitle_service.py split_segment_by_words(words, max_chars,
max_duration, max_words)`. -/
def split_segment_by_words (words : List WordT) (max_chars : ℕ)
    (max_duration : ℚ) (max_words : ℕ) : List Seg :=
  sswAux max_chars max_duration max_words none words

theorem sswAux_nil_none {mc : ℕ} {md : ℚ} {mw : ℕ} :
    sswAux mc md mw none [] = [] := rfl

theorem sswAux_nil_some {mc : ℕ} {md : ℚ} {mw : ℕ} (a : SegAcc) :
    sswAux mc md mw (some a) [] = flushAcc a := rfl

theorem sswAux_cons_skip {mc : ℕ} {md : ℚ} {mw : ℕ} (acc : Option SegAcc)
    {w : WordT} (ws : List WordT) (h : (pyStrip w.word).isEmpty = true) :
    sswAux mc md mw acc (w :: ws) = sswAux mc md mw acc ws := by
  cases acc <;> simp only [sswAux, h, if_true]

theorem sswAux_cons_none {mc : ℕ} {md : ℚ} {mw : ℕ} {w : WordT}
    (ws : List WordT) (h : (pyStrip w.word).isEmpty = false) :
    sswAux mc md mw none (w :: ws) =
      sswAux mc md mw (some ⟨pyStrip w.word, w.start, w.«end», 1⟩) ws := by
  simp only [sswAux, h, Bool.false_eq_true, if_false]

theorem sswAux_cons_close {mc : ℕ} {md : ℚ} {mw : ℕ} (a : SegAcc) {w : WordT}
    (ws : List WordT) (h : (pyStrip w.word).isEmpty = false)
    (hcond : mw ≤ a.count ∨ mc < (a.text ++ ' ' :: pyStrip w.word).length ∨
      md < w.«end» - a.start) :
    sswAux mc md mw (some a) (w :: ws) =
      flushAcc a ++
        sswAux mc md mw (some ⟨pyStrip w.word, w.start, w.«end», 1⟩) ws := by
  simp only [sswAux, h, Bool.false_eq_true, if_false]
  rw [if_pos hcond]

theorem sswAux_cons_extend {mc : ℕ} {md : ℚ} {mw : ℕ} (a : SegAcc) {w : WordT}
    (ws : List WordT) (h : (pyStrip w.word).isEmpty = false)
    (hcond : ¬ (mw ≤ a.count ∨ mc < (a.text ++ ' ' :: pyStrip w.word).length ∨
      md < w.«end» - a.start)) :
    sswAux mc md mw (some a) (w :: ws) =
      sswAux mc md mw
        (some ⟨a.text ++ ' ' :: pyStrip w.word, a.start, w.«end», a.count + 1⟩)
        ws := by
  simp only [sswAux, h, Bool.false_eq_true, if_false]
  rw [if_neg hcond]

/-- Membership in the clipped list, characterised. -/
theorem mem_clip_segments {segments : List Seg} {D : ℚ} {c : Seg} :
    c ∈ clip_segments segments D ↔
      ∃ s ∈ segments, s.start < D ∧
        s.start < (if D < s.«end» then D else s.«end») ∧
        c = ⟨s.start, if D < s.«end» then D else s.«end», s.text⟩ := by
  rw [clip_segments, List.mem_filterMap]
  constructor
  · rintro ⟨s, hs, hmap⟩
    by_cases h1 : s.start < D
    · rw [if_pos h1] at hmap
      by_cases h2 : s.start < (if D < s.«end» then D else s.«end»)
      · rw [if_pos h2] at hmap
        injection hmap with hmap
        exact ⟨s, hs, h1, h2, hmap.symm⟩
      · rw [if_neg h2] at hmap; simp at hmap
    · rw [if_neg h1] at hmap; simp at hmap
  · rintro ⟨s, hs, h1, h2, rfl⟩
    refine ⟨s, hs, ?_⟩
    rw [if_pos h1, if_pos h2]

/-- C1: `scale_segments_to_duration` returns the input unchanged on an empty
list or when the last segment's `end` is `≤ 0`; otherwise it multiplies every
`start` and `end` by `target_duration / (last segment's end)`, and in
particular leaves every segment unchanged when the factor is `1`. -/
theorem scale_segments_to_duration_spec (segments : List Seg)
    (target_duration : ℚ) :
    ((segments = [] ∨ estimatedDuration segments ≤ 0) →
      scale_segments_to_duration segments target_duration = segments) ∧
    (0 < estimatedDuration segments →
      scale_segments_to_duration segments target_duration =
        segments.map fun s =>
          { start := s.start * (target_duration / estimatedDuration segments)
            «end» := s.«end» * (target_duration / estimatedDuration segments)
            text := s.text }) ∧
    (0 < estimatedDuration segments →
      target_duration = estimatedDuration segments →
      scale_segments_to_duration segments target_duration = segments) := by
  refine ⟨?_, ?_, ?_⟩
  · rintro (rfl | hle)
    · rfl
    · unfold scale_segments_to_duration
      split
      · rfl
      · simp [hle]
  · intro hpos
    have hne : ¬ segments.isEmpty := by
      cases segments with
      | nil => simp [estimatedDuration] at hpos
      | cons a l => simp
    unfold scale_segments_to_duration
    simp only [hne, Bool.false_eq_true, if_false, not_lt.mpr, if_neg (not_le.mpr hpos)]
  · intro hpos heq
    have hne : ¬ segments.isEmpty := by
      cases segments with
      | nil => simp [estimatedDuration] at hpos
      | cons a l => simp
    unfold scale_segments_to_duration
    simp only [hne, Bool.false_eq_true, if_false, if_neg (not_le.mpr hpos)]
    subst heq
    rw [div_self (ne_of_gt hpos)]
    have : ∀ s : Seg,
        (⟨s.start * 1, s.«end» * 1, s.text⟩ : Seg) = s := by
      intro s; cases s; simp
    simp only [this, List.map_id']

/-- Witness for C1 (the spec's Scenario C): cues ending at `4.8`, scaled to a
target duration of `6.0`; the cue `(2.0, 2.4)` becomes `(2.5, 3.0)`. -/
theorem scale_segments_to_duration_spec_witness :
    scale_segments_to_duration
        [⟨2, 12/5, ['a']⟩, ⟨12/5, 24/5, ['b']⟩] 6 =
      [⟨5/2, 3, ['a']⟩, ⟨3, 6, ['b']⟩] := by
  have h := (scale_segments_to_duration_spec
      [⟨2, 12/5, ['a']⟩, ⟨12/5, 24/5, ['b']⟩] 6).2.1 (by norm_num [estimatedDuration])
  rw [h]
  norm_num [estimatedDuration]

/-- C2 counterexample: the clipping step never checks `0 ≤ start`, so a
segment starting at `-1` survives clipping with a negative start. -/
theorem clip_segments_counterexample :
    ¬ (∀ c ∈ clip_segments [⟨-1, 1/2, ['x']⟩] 10,
        0 ≤ c.start ∧ c.start < 10 ∧ c.«end» ≤ 10) := by
  intro h
  have hc : (⟨-1, 1/2, ['x']⟩ : Seg) ∈ clip_segments [⟨-1, 1/2, ['x']⟩] 10 := by
    norm_num [clip_segments, List.filterMap_cons]
  have h0 := (h _ hc).1
  norm_num at h0

/-- C2 (amended): every segment surviving the clipping step with bound `D`
satisfies `start < D` and `start < end ≤ D`, and arises from an input segment
with `start < D` by truncating its `end` to `D`; the `0 ≤ start` part of the
original claim is not enforced by the code. -/
theorem clip_segments_bounds (segments : List Seg) (D : ℚ) :
    ∀ c ∈ clip_segments segments D,
      c.start < D ∧ c.start < c.«end» ∧ c.«end» ≤ D ∧
      ∃ s ∈ segments, s.start < D ∧ c.start = s.start ∧ c.text = s.text ∧
        c.«end» = if D < s.«end» then D else s.«end» := by
  intro c hc
  obtain ⟨s, hs, h1, h2, rfl⟩ := mem_clip_segments.mp hc
  refine ⟨h1, h2, ?_, s, hs, h1, rfl, rfl, rfl⟩
  by_cases h3 : D < s.«end»
  · simp [h3]
  · simp only [if_neg h3]; exact le_of_not_lt h3

/-- Witness for C2 (the spec's Scenario E): the cue `(9.8, 10.3)` with
`total_duration = 10` survives as `(9.8, 10.0)` and satisfies the amended
bounds. -/
theorem clip_segments_bounds_witness :
    (⟨49/5, 10, ['x']⟩ : Seg) ∈ clip_segments [⟨49/5, 103/10, ['x']⟩] 10 ∧
    ((49:ℚ)/5 < 10 ∧ (49:ℚ)/5 < (10:ℚ) ∧ (10:ℚ) ≤ 10) := by
  have hc : (⟨49/5, 10, ['x']⟩ : Seg) ∈ clip_segments [⟨49/5, 103/10, ['x']⟩] 10 := by
    norm_num [clip_segments, List.filterMap_cons]
  have h := clip_segments_bounds [⟨49/5, 103/10, ['x']⟩] 10 ⟨49/5, 10, ['x']⟩ hc
  exact ⟨hc, h.1, h.2.1, h.2.2.1⟩

/-- C5 counterexample: the minimum-duration pass runs *before* clipping, so a
cue near the end of the timeline survives clipping with duration `< 0.5`
(here `(9.8, 9.9)` with `D = 10` survives as `(9.8, 10.0)`, duration `0.2`),
and no start pull-back exists in the code. -/
theorem min_duration_counterexample :
    ¬ (∀ c ∈ clip_segments (enforce_min_duration [⟨49/5, 99/10, ['x']⟩]) 10,
        1/2 ≤ c.«end» - c.start) := by
  intro h
  have hc : (⟨49/5, 10, ['x']⟩ : Seg) ∈
      clip_segments (enforce_min_duration [⟨49/5, 99/10, ['x']⟩]) 10 := by
    norm_num [enforce_min_duration, clip_segments, List.filterMap_cons]
  have h0 := h _ hc
  norm_num at h0

/-- C5 (amended): after the minimum-duration pass every segment has duration
`≥ 0.5`; the subsequent clipping step can reduce the duration again, so a
surviving cue only has positive duration, and has duration `≥ 0.5` unless it
was truncated at `D` (i.e. its `end` equals `D`); the code never pulls the
start back. -/
theorem min_duration_then_clip (segments : List Seg) (D : ℚ) :
    (∀ s ∈ enforce_min_duration segments, 1/2 ≤ s.«end» - s.start) ∧
    (∀ c ∈ clip_segments (enforce_min_duration segments) D,
        0 < c.«end» - c.start ∧ (1/2 ≤ c.«end» - c.start ∨ c.«end» = D)) := by
  have hmin : ∀ s ∈ enforce_min_duration segments, 1/2 ≤ s.«end» - s.start := by
    intro s hs
    rw [enforce_min_duration, List.mem_map] at hs
    obtain ⟨t, _, rfl⟩ := hs
    by_cases h : t.«end» - t.start < 1/2
    · rw [if_pos h]
      show (1:ℚ)/2 ≤ t.start + 1/2 - t.start
      linarith
    · rw [if_neg h]
      linarith [le_of_not_lt h]
  refine ⟨hmin, ?_⟩
  intro c hc
  obtain ⟨s, hs, h1, h2, rfl⟩ := mem_clip_segments.mp hc
  have hdur := hmin s hs
  by_cases h3 : D < s.«end»
  · rw [if_pos h3] at h2 ⊢
    refine ⟨?_, Or.inr ?_⟩
    · show (0:ℚ) < D - s.start
      linarith
    · show D = D
      rfl
  · rw [if_neg h3] at h2 ⊢
    refine ⟨?_, Or.inl ?_⟩
    · show (0:ℚ) < s.«end» - s.start
      linarith
    · show (1:ℚ)/2 ≤ s.«end» - s.start
      exact hdur

/-- Witness for C5 (amended): a short cue `(1, 1.1)` with `D = 10` is padded
to `(1, 1.5)` and survives clipping untouched, with duration exactly `0.5`. -/
theorem min_duration_then_clip_witness :
    (⟨1, 3/2, ['y']⟩ : Seg) ∈
      clip_segments (enforce_min_duration [⟨1, 11/10, ['y']⟩]) 10 ∧
    (0 < (3:ℚ)/2 - 1 ∧ ((1:ℚ)/2 ≤ (3:ℚ)/2 - 1 ∨ (3:ℚ)/2 = 10)) := by
  have hc : (⟨1, 3/2, ['y']⟩ : Seg) ∈
      clip_segments (enforce_min_duration [⟨1, 11/10, ['y']⟩]) 10 := by
    norm_num [enforce_min_duration, clip_segments, List.filterMap_cons]
  have h := (min_duration_then_clip [⟨1, 11/10, ['y']⟩] 10).2 _ hc
  exact ⟨hc, h⟩

/-- C6 counterexample: on a word with `end < start` the segmenter copies the
timestamps verbatim — the cue produced for the single word `("w", 1, 0.5)` is
`(1, 0.5)` with *negative* duration, so no `max(end, start + epsilon) - start`
floor is applied (any such floor would force a positive duration). -/
theorem ssw_no_epsilon_floor :
    split_segment_by_words [⟨['w'], 1, 1/2⟩] 45 5 3 = [⟨1, 1/2, ['w']⟩] ∧
    (1:ℚ)/2 - 1 < 0 := by
  have hstrip : pyStrip ['w'] = ['w'] := by decide
  constructor
  · show sswAux 45 5 3 none [⟨['w'], 1, 1/2⟩] = [⟨1, 1/2, ['w']⟩]
    rw [sswAux_cons_none _ (by decide), sswAux_nil_some]
    simp only [flushAcc, hstrip, List.isEmpty_cons, Bool.false_eq_true,
      if_false]
  · norm_num

/-- C6 (amended): the segmenter is a total function (it never raises) and it
performs no timestamp repair: every output cue's `start` is the `start` of
some input word and its `end` is the `end` of some input word, taken
verbatim. -/
theorem ssw_timestamps_verbatim (words : List WordT) (mc : ℕ) (md : ℚ)
    (mw : ℕ) :
    ∀ c ∈ split_segment_by_words words mc md mw,
      (∃ w ∈ words, c.start = w.start) ∧ ∃ w ∈ words, c.«end» = w.«end» := by
  suffices h : ∀ (ws : List WordT) (acc : Option SegAcc) (S E : Set ℚ),
      (∀ a, acc = some a → a.start ∈ S ∧ a.stop ∈ E) →
      (∀ w ∈ ws, w.start ∈ S ∧ w.«end» ∈ E) →
      ∀ c ∈ sswAux mc md mw acc ws, c.start ∈ S ∧ c.«end» ∈ E by
    intro c hc
    have hme := h words none {q | ∃ w ∈ words, q = w.start}
      {q | ∃ w ∈ words, q = w.«end»}
      (fun a ha => Option.noConfusion ha)
      (fun w hw => ⟨⟨w, hw, rfl⟩, ⟨w, hw, rfl⟩⟩) c hc
    obtain ⟨⟨w1, hw1, h1⟩, ⟨w2, hw2, h2⟩⟩ := hme
    exact ⟨⟨w1, hw1, h1⟩, ⟨w2, hw2, h2⟩⟩
  intro ws
  induction ws with
  | nil =>
    intro acc S E hacc _ c hc
    match acc with
    | none => simp [sswAux_nil_none] at hc
    | some a =>
      rw [sswAux_nil_some] at hc
      unfold flushAcc at hc
      by_cases he : (pyStrip a.text).isEmpty
      · simp [he] at hc
      · simp only [he, Bool.false_eq_true, if_false, List.mem_singleton] at hc
        subst hc
        exact hacc a rfl
  | cons w ws ih =>
    intro acc S E hacc hws c hc
    have hw := hws w (List.mem_cons_self w ws)
    have hws' : ∀ u ∈ ws, u.start ∈ S ∧ u.«end» ∈ E :=
      fun u hu => hws u (List.mem_cons_of_mem w hu)
    by_cases hword : (pyStrip w.word).isEmpty
    · rw [sswAux_cons_skip acc ws hword] at hc
      exact ih acc S E hacc hws' c hc
    · rw [Bool.not_eq_true] at hword
      match acc with
      | none =>
        rw [sswAux_cons_none ws hword] at hc
        refine ih _ S E ?_ hws' c hc
        rintro b hb
        cases hb
        exact ⟨hw.1, hw.2⟩
      | some a =>
        by_cases hcond : mw ≤ a.count ∨
            mc < (a.text ++ ' ' :: pyStrip w.word).length ∨
            md < w.«end» - a.start
        · rw [sswAux_cons_close a ws hword hcond, List.mem_append] at hc
          rcases hc with hc | hc
          · unfold flushAcc at hc
            by_cases he : (pyStrip a.text).isEmpty
            · simp [he] at hc
            · simp only [he, Bool.false_eq_true, if_false,
                List.mem_singleton] at hc
              subst hc
              exact hacc a rfl
          · refine ih _ S E ?_ hws' c hc
            rintro b hb
            cases hb
            exact ⟨hw.1, hw.2⟩
        · rw [sswAux_cons_extend a ws hword hcond] at hc
          refine ih _ S E ?_ hws' c hc
          rintro b hb
          cases hb
          exact ⟨(hacc a rfl).1, hw.2⟩

/-- Witness for C6 (amended): the single cue produced from the malformed word
`("w", 1, 0.5)` carries that word's timestamps verbatim. -/
theorem ssw_timestamps_verbatim_witness :
    (∃ w ∈ [(⟨['w'], 1, 1/2⟩ : WordT)], (⟨1, 1/2, ['w']⟩ : Seg).start = w.start) ∧
    ∃ w ∈ [(⟨['w'], 1, 1/2⟩ : WordT)], (⟨1, 1/2, ['w']⟩ : Seg).«end» = w.«end» := by
  apply ssw_timestamps_verbatim [⟨['w'], 1, 1/2⟩] 45 5 3
  show (⟨1, 1/2, ['w']⟩ : Seg) ∈ sswAux 45 5 3 none [⟨['w'], 1, 1/2⟩]
  have hstrip : pyStrip ['w'] = ['w'] := by decide
  rw [sswAux_cons_none _ (by decide), sswAux_nil_some]
  simp only [flushAcc, hstrip, List.isEmpty_cons, Bool.false_eq_true, if_false]
  exact List.mem_singleton.mpr rfl

/-! ## `word_sync_service.py group_words_for_display` -/

/-- A word-level segment produced by `create_word_level_subtitles`:
`{'text', 'start', 'end', 'type', 'confidence'}`. -/
structure WordSeg where
  text : Str
  start : ℚ
  «end» : ℚ
  type : Str
  confidence : ℚ
deriving DecidableEq, Repr

/-- A grouped subtitle produced by `group_words_for_display`
(`current_type` may still be `None` in Python, hence `Option Str`). -/
structure GroupSeg where
  text : Str
  start : ℚ
  «end» : ℚ
  type : Option Str
  word_count : ℕ
  confidence : ℚ
  words : List WordSeg
deriving DecidableEq, Repr

/-- Building one subtitle dictionary from the accumulated group
(`current_group[0]['start']`, `current_group[-1]['end']`, mean confidence). -/
def mkGroup (g : List WordSeg) (t : Option Str) : GroupSeg :=
  { text := joinSp (g.map (·.text))
    start := ((g.head?.map (·.start)).getD 0)
    «end» := ((g.getLast?.map (·.«end»)).getD 0)
    type := t
    word_count := g.length
    confidence := (g.map (·.confidence)).sum / (g.length : ℚ)
    words := g }

/-- `if current_group:` flush. -/
def flushGroup (g : List WordSeg) (t : Option Str) : List GroupSeg :=
  if g.isEmpty then [] else [mkGroup g t]

/-- The split condition of `group_words_for_display`: type change, max words
reached, or group duration (measured from the first word's start) exceeded. -/
def gwfdCond (mw : ℕ) (md : ℚ) (grp : List WordSeg) (ctype : Option Str)
    (w : WordSeg) : Prop :=
  ctype ≠ some w.type ∨ mw ≤ grp.length ∨
    (grp ≠ [] ∧ md < w.start - ((grp.head?.map (·.start)).getD 0))

instance (mw : ℕ) (md : ℚ) (grp : List WordSeg) (ctype : Option Str)
    (w : WordSeg) : Decidable (gwfdCond mw md grp ctype w) := by
  unfold gwfdCond; infer_instance

/-- The loop of `word_sync_service.py group_words_for_display`, carrying
`current_group` and `current_type`. -/
def gwfdAux (mw : ℕ) (md : ℚ) :
    List WordSeg → Option Str → List WordSeg → List GroupSeg
  | grp, ctype, [] => flushGroup grp ctype
  | grp, ctype, w :: ws =>
    if gwfdCond mw md grp ctype w then
      flushGroup grp ctype ++ gwfdAux mw md [w] (some w.type) ws
    else
      gwfdAux mw md (grp ++ [w]) (some w.type) ws

/-- `word_sync_service.py group_words_for_display(word_segments, max_words,
max_duration)`. -/
def group_words_for_display (word_segments : List WordSeg) (max_words : ℕ)
    (max_duration : ℚ) : List GroupSeg :=
  gwfdAux max_words max_duration [] none word_segments

theorem gwfdAux_nil {mw : ℕ} {md : ℚ} (grp : List WordSeg)
    (ctype : Option Str) : gwfdAux mw md grp ctype [] = flushGroup grp ctype :=
  rfl

theorem gwfdAux_cons_pos {mw : ℕ} {md : ℚ} (grp : List WordSeg)
    (ctype : Option Str) {w : WordSeg} (ws : List WordSeg)
    (h : gwfdCond mw md grp ctype w) :
    gwfdAux mw md grp ctype (w :: ws) =
      flushGroup grp ctype ++ gwfdAux mw md [w] (some w.type) ws := by
  rw [gwfdAux, if_pos h]

theorem gwfdAux_cons_neg {mw : ℕ} {md : ℚ} (grp : List WordSeg)
    (ctype : Option Str) {w : WordSeg} (ws : List WordSeg)
    (h : ¬ gwfdCond mw md grp ctype w) :
    gwfdAux mw md grp ctype (w :: ws) =
      gwfdAux mw md (grp ++ [w]) (some w.type) ws := by
  rw [gwfdAux, if_neg h]

/-- C10: every subtitle group emitted by `group_words_for_display` carries
words of exactly one stream type, and the group's `type` field is that shared
value: voiceover and CTA words are never merged into one subtitle. -/
theorem group_words_single_type (word_segments : List WordSeg) (mw : ℕ)
    (md : ℚ) :
    ∀ g ∈ group_words_for_display word_segments mw md,
      ∃ t, g.type = some t ∧ ∀ w ∈ g.words, w.type = t := by
  suffices h : ∀ (ws grp : List WordSeg) (ctype : Option Str),
      (grp = [] ∨ ∃ t, ctype = some t ∧ ∀ w ∈ grp, w.type = t) →
      ∀ g ∈ gwfdAux mw md grp ctype ws,
        ∃ t, g.type = some t ∧ ∀ w ∈ g.words, w.type = t by
    exact h word_segments [] none (Or.inl rfl)
  intro ws
  induction ws with
  | nil =>
    intro grp ctype hinv g hg
    rw [gwfdAux_nil, flushGroup] at hg
    by_cases hemp : grp.isEmpty
    · simp [hemp] at hg
    · simp only [hemp, Bool.false_eq_true, if_false, List.mem_singleton] at hg
      subst hg
      rcases hinv with rfl | ⟨t, rfl, hall⟩
      · simp at hemp
      · exact ⟨t, rfl, hall⟩
  | cons w rest ih =>
    intro grp ctype hinv g hg
    by_cases hcond : gwfdCond mw md grp ctype w
    · rw [gwfdAux_cons_pos grp ctype rest hcond, List.mem_append] at hg
      rcases hg with hg | hg
      · rw [flushGroup] at hg
        by_cases hemp : grp.isEmpty
        · simp [hemp] at hg
        · simp only [hemp, Bool.false_eq_true, if_false,
            List.mem_singleton] at hg
          subst hg
          rcases hinv with rfl | ⟨t, rfl, hall⟩
          · simp at hemp
          · exact ⟨t, rfl, hall⟩
      · refine ih [w] (some w.type) ?_ g hg
        refine Or.inr ⟨w.type, rfl, ?_⟩
        intro u hu
        rcases List.mem_singleton.mp hu with rfl
        rfl
    · rw [gwfdAux_cons_neg grp ctype rest hcond] at hg
      have hty : ctype = some w.type := by
        by_contra hne
        exact hcond (Or.inl hne)
      refine ih (grp ++ [w]) (some w.type) ?_ g hg
      refine Or.inr ⟨w.type, rfl, ?_⟩
      intro u hu
      rcases List.mem_append.mp hu with hu | hu
      · rcases hinv with rfl | ⟨t, ht, hall⟩
        · simp at hu
        · rw [ht] at hty
          injection hty with hty
          rw [← hty]
          exact hall u hu
      · rcases List.mem_singleton.mp hu with rfl
        rfl

/-- Witness for C10: grouping a voiceover word followed by a CTA word yields
two single-type groups; the first one carries the voiceover type. -/
theorem group_words_single_type_witness :
    ∃ t, (mkGroup [⟨['h','i'], 0, 1, ['v'], 1⟩] (some ['v'])).type = some t ∧
      ∀ w ∈ (mkGroup [⟨['h','i'], 0, 1, ['v'], 1⟩] (some ['v'])).words,
        w.type = t := by
  apply group_words_single_type
    [⟨['h','i'], 0, 1, ['v'], 1⟩, ⟨['g','o'], 1, 2, ['c'], 1⟩] 2 2
  show mkGroup [⟨['h','i'], 0, 1, ['v'], 1⟩] (some ['v']) ∈
    gwfdAux 2 2 [] none
      [⟨['h','i'], 0, 1, ['v'], 1⟩, ⟨['g','o'], 1, 2, ['c'], 1⟩]
  rw [gwfdAux_cons_pos _ _ _ (Or.inl (by decide)),
    gwfdAux_cons_pos _ _ _ (Or.inl (by decide)), gwfdAux_nil]
  simp only [flushGroup, List.isEmpty_nil, if_true, List.isEmpty_cons,
    Bool.false_eq_true, if_false, List.nil_append, List.singleton_append]
  exact List.mem_cons_self _ _

/-! ## `subtitle_service.py segments_to_srt`: the text projection -/

/-- Python `str.upper()`, character by character. -/
def pyUpper (s : Str) : Str := s.map Char.toUpper

/-- The text transformation of `subtitle_service.py segments_to_srt`
(lines 263-267): `seg['text'].strip().upper()`, split into words, joined
with `'\n'` (one word per line). -/
def srt_text (s : Str) : Str :=
  List.intercalate ['\n'] (pySplit (pyUpper (pyStrip s)))

/-- Every chunk produced by `splitOnP` is free of separators. -/
theorem mem_splitOnP_not_sep {α : Type} (p : α → Bool) (l : List α) :
    ∀ t ∈ l.splitOnP p, ∀ c ∈ t, p c = false := by
  induction l with
  | nil =>
    intro t ht c hc
    rw [List.splitOnP_nil, List.mem_singleton] at ht
    subst ht
    simp at hc
  | cons x xs ih =>
    intro t ht c hc
    rw [List.splitOnP_cons] at ht
    by_cases hx : p x
    · rw [if_pos hx, List.mem_cons] at ht
      rcases ht with rfl | ht
      · simp at hc
      · exact ih t ht c hc
    · rw [if_neg hx] at ht
      rcases hhd : xs.splitOnP p with _ | ⟨hd, tl⟩
      · exact absurd hhd (List.splitOnP_ne_nil p xs)
      · rw [hhd] at ht
        simp only [List.modifyHead, List.mem_cons] at ht
        rcases ht with rfl | ht
        · rcases List.mem_cons.mp hc with rfl | hc
          · exact Bool.eq_false_iff.mpr hx
          · exact ih hd (hhd ▸ List.mem_cons_self hd tl) c hc
        · exact ih t (hhd ▸ List.mem_cons_of_mem hd ht) c hc

/-- Every token of `pySplit` is non-empty and free of whitespace. -/
theorem mem_pySplit {s : Str} :
    ∀ t ∈ pySplit s, t ≠ [] ∧ ∀ c ∈ t, c.isWhitespace = false := by
  intro t ht
  rw [pySplit, List.mem_filter] at ht
  refine ⟨?_, fun c hc => mem_splitOnP_not_sep _ s t ht.1 c hc⟩
  intro hnil
  subst hnil
  simp at ht

/-- C9 counterexample: serializing the cue text `"hi"` produces the subtitle
text `"HI"`: the original text's case is not recoverable, so serialization is
not a lossless projection of the Timeline. -/
theorem srt_text_counterexample :
    srt_text ['h', 'i'] ≠ ['h', 'i'] ∧ srt_text ['h', 'i'] = ['H', 'I'] := by
  constructor <;> decide

/-- C9 (amended): serialization is lossy — it trims, uppercases and collapses
whitespace — but the *word sequence* of the uppercased trimmed text survives:
whenever the transformed text has at least one word, splitting the serialized
subtitle text on `'\n'` recovers exactly the whitespace-tokens of
`upper(strip(text))`. -/
theorem srt_text_lines (s : Str)
    (h : pySplit (pyUpper (pyStrip s)) ≠ []) :
    (srt_text s).splitOn '\n' = pySplit (pyUpper (pyStrip s)) := by
  rw [srt_text]
  have hx : ∀ t ∈ pySplit (pyUpper (pyStrip s)), '\n' ∉ t := by
    intro t ht hmem
    have := (mem_pySplit t ht).2 '\n' hmem
    simp [Char.isWhitespace] at this
  exact List.splitOn_intercalate (pySplit (pyUpper (pyStrip s))) '\n' hx h

/-- Witness for C9 (amended): `"hi there"` serializes to `"HI\nTHERE"`, whose
lines are the two uppercased words. -/
theorem srt_text_lines_witness :
    (srt_text ['h', 'i', ' ', 't', 'h', 'e', 'r', 'e']).splitOn '\n' =
      pySplit (pyUpper (pyStrip ['h', 'i', ' ', 't', 'h', 'e', 'r', 'e'])) :=
  srt_text_lines ['h', 'i', ' ', 't', 'h', 'e', 'r', 'e'] (by decide)

/-! ## `enhanced_subtitle_service.py`: pause-aware segmentation -/

/-- The regex test `re.search(r'[,.!?;:]$', word_text)` of
`detect_natural_pauses`: does the stripped word end in `, . ! ? ; :`? -/
def endsInPunct (s : Str) : Bool :=
  match s.reverse with
  | [] => false
  | c :: _ => [',', '.', '!', '?', ';', ':'].contains c

/-- The grouping loop of `detect_natural_pauses` over one segment's word list
(`current_group` is the accumulator): a group is closed after a word when the
gap to the next word is `≥ min_pause_duration`, when the stripped word ends in
punctuation, or at the end of the list. -/
def pauseGroupsAux (θ : ℚ) : List WordT → List WordT → List (List WordT)
  | _, [] => []
  | grp, [w] => [grp ++ [w]]
  | grp, w :: w' :: rest =>
    if θ ≤ w'.start - w.«end» ∨ endsInPunct (pyStrip w.word) = true then
      (grp ++ [w]) :: pauseGroupsAux θ [] (w' :: rest)
    else
      pauseGroupsAux θ (grp ++ [w]) (w' :: rest)

/-- `enhanced_subtitle_service.py detect_natural_pauses`, restricted to the
word list of one input segment: the provisional groups. -/
def detect_natural_pauses_words (θ : ℚ) (ws : List WordT) :
    List (List WordT) :=
  pauseGroupsAux θ [] ws

/-- Modelled from the spec's words for C7 (refinement reference): split the
word sequence exactly at the points where the gap between a word's `end` and
the next word's `start` is `≥` the threshold, or the current word's trimmed
text ends in punctuation. -/
def splitAtPausePoints (θ : ℚ) : List WordT → List (List WordT)
  | [] => []
  | [w] => [[w]]
  | w :: w' :: rest =>
    if θ ≤ w'.start - w.«end» ∨ endsInPunct (pyStrip w.word) = true then
      [w] :: splitAtPausePoints θ (w' :: rest)
    else
      match splitAtPausePoints θ (w' :: rest) with
      | [] => [[w]]
      | g :: gs => (w :: g) :: gs

/-- The slicing loop of `chunk_segments_into_words`:
`for i in range(0, len(words), max_words): words[i:i+max_words]`
(meaningful for `max_words ≥ 1`; Python raises on step `0`). -/
def chunkSlices (max_words : ℕ) : List WordT → List (List WordT)
  | [] => []
  | w :: ws =>
    (w :: ws.take (max_words - 1)) ::
      chunkSlices max_words (ws.drop (max_words - 1))
termination_by l => l.length
decreasing_by
  simp only [List.length_drop, List.length_cons]
  omega

/-- The cue built from one chunk by `chunk_segments_into_words`:
`chunk_words[0]['start']`, `chunk_words[-1]['end']`, stripped words joined
with spaces. -/
def chunkSeg (chunk : List WordT) : Seg :=
  { start := (chunk.head?.map (·.start)).getD 0
    «end» := (chunk.getLast?.map (·.«end»)).getD 0
    text := joinSp (chunk.map fun w => pyStrip w.word) }

/-- `enhanced_subtitle_service.py chunk_segments_into_words`, applied to the
word lists of the pause-aware groups. -/
def chunk_segments_into_words (groups : List (List WordT)) (max_words : ℕ) :
    List Seg :=
  groups.flatMap fun g => (chunkSlices max_words g).map chunkSeg

theorem chunkSlices_nil (mw : ℕ) : chunkSlices mw [] = [] := by
  rw [chunkSlices.eq_def]

theorem chunkSlices_cons (mw : ℕ) (w : WordT) (ws : List WordT) :
    chunkSlices mw (w :: ws) =
      (w :: ws.take (mw - 1)) :: chunkSlices mw (ws.drop (mw - 1)) := by
  rw [chunkSlices.eq_def]

theorem splitAtPausePoints_ne_nil (θ : ℚ) (w : WordT) :
    ∀ rest : List WordT, splitAtPausePoints θ (w :: rest) ≠ [] := by
  intro rest
  match rest with
  | [] => simp [splitAtPausePoints]
  | w' :: rest' =>
    rw [splitAtPausePoints]
    by_cases h : θ ≤ w'.start - w.«end» ∨ endsInPunct (pyStrip w.word) = true
    · rw [if_pos h]; simp
    · rw [if_neg h]
      rcases hs : splitAtPausePoints θ (w' :: rest') with _ | ⟨g, gs⟩
      · simp
      · simp

theorem pauseGroupsAux_eq (θ : ℚ) :
    ∀ (ws : List WordT) (grp : List WordT) (w : WordT),
      pauseGroupsAux θ grp (w :: ws) =
        match splitAtPausePoints θ (w :: ws) with
        | [] => []
        | g :: gs => (grp ++ g) :: gs := by
  intro ws
  induction ws with
  | nil => intro grp w; rfl
  | cons w' rest ih =>
    intro grp w
    rw [pauseGroupsAux, splitAtPausePoints]
    by_cases h : θ ≤ w'.start - w.«end» ∨ endsInPunct (pyStrip w.word) = true
    · rw [if_pos h, if_pos h, ih [] w']
      rcases hs : splitAtPausePoints θ (w' :: rest) with _ | ⟨g, gs⟩
      · exact absurd hs (splitAtPausePoints_ne_nil θ w' rest)
      · simp
    · rw [if_neg h, if_neg h, ih (grp ++ [w]) w']
      rcases hs : splitAtPausePoints θ (w' :: rest) with _ | ⟨g, gs⟩
      · exact absurd hs (splitAtPausePoints_ne_nil θ w' rest)
      · simp

theorem chunkSlices_flatten_len (mw : ℕ) (hmw : 1 ≤ mw) :
    ∀ (n : ℕ) (g : List WordT), g.length ≤ n →
      (chunkSlices mw g).flatten = g ∧
      ∀ c ∈ chunkSlices mw g, c ≠ [] ∧ c.length ≤ mw := by
  intro n
  induction n with
  | zero =>
    intro g hg
    rw [List.length_eq_zero.mp (Nat.le_zero.mp hg), chunkSlices_nil]
    exact ⟨rfl, by simp⟩
  | succ n ih =>
    intro g hg
    match g with
    | [] =>
      rw [chunkSlices_nil]
      exact ⟨rfl, by simp⟩
    | w :: ws =>
      rw [chunkSlices_cons]
      have hlen : (ws.drop (mw - 1)).length ≤ n := by
        rw [List.length_drop]
        simp only [List.length_cons] at hg
        omega
      obtain ⟨ihf, ihm⟩ := ih (ws.drop (mw - 1)) hlen
      constructor
      · rw [List.flatten_cons, ihf, List.cons_append, List.take_append_drop]
      · intro c hc
        rcases List.mem_cons.mp hc with rfl | hc
        · refine ⟨by simp, ?_⟩
          simp only [List.length_cons, List.length_take]
          omega
        · exact ihm c hc

/-- C7 counterexample: a provisional group is *not* re-chunked by the
max-duration rule — two words of ten seconds each (no pause, no punctuation)
stay in a single chunk of duration `20 s`, while the §4.2 rule with the
default `max_duration = 5` splits them into two cues. -/
theorem chunk_ignores_duration :
    chunk_segments_into_words
        (detect_natural_pauses_words (3/10) [⟨['a'], 0, 10⟩, ⟨['b'], 10, 20⟩])
        3 = [⟨0, 20, ['a', ' ', 'b']⟩] ∧
    split_segment_by_words [⟨['a'], 0, 10⟩, ⟨['b'], 10, 20⟩] 45 5 3 =
      [⟨0, 10, ['a']⟩, ⟨10, 20, ['b']⟩] ∧
    (5 : ℚ) < 20 - 0 := by
  refine ⟨?_, ?_, by norm_num⟩
  · have hnopause :
        ¬((3:ℚ)/10 ≤ (10:ℚ) - 10 ∨
          endsInPunct (pyStrip ['a']) = true) := by
      rintro (h | h)
      · norm_num at h
      · exact absurd h (by decide)
    rw [detect_natural_pauses_words, pauseGroupsAux, if_neg hnopause,
      pauseGroupsAux]
    rw [chunk_segments_into_words]
    simp only [List.nil_append, List.flatMap_cons, List.flatMap_nil,
      List.append_nil]
    simp only [List.singleton_append]
    rw [chunkSlices_cons]
    simp only [List.take, List.drop]
    rw [chunkSlices_nil]
    simp only [List.map_cons, List.map_nil]
    have htext : joinSp [pyStrip ['a'], pyStrip ['b']] = ['a', ' ', 'b'] := by
      decide
    simp only [chunkSeg, List.map_cons, List.map_nil, htext]
    simp
  · show sswAux 45 5 3 none [⟨['a'], 0, 10⟩, ⟨['b'], 10, 20⟩] =
      [⟨0, 10, ['a']⟩, ⟨10, 20, ['b']⟩]
    rw [sswAux_cons_none _ (by decide)]
    rw [sswAux_cons_close _ _ (by decide)
      (Or.inr (Or.inr (by norm_num [pyStrip])))]
    rw [sswAux_nil_some]
    have h1 : pyStrip ['a'] = ['a'] := by decide
    have h2 : pyStrip ['b'] = ['b'] := by decide
    simp only [flushAcc, h1, h2, List.isEmpty_cons, Bool.false_eq_true,
      if_false]
    simp

/-- C7 (amended): the pause-aware variant splits the word sequence into
provisional groups exactly at the claimed pause points (gap `≥` threshold or
trailing punctuation on the stripped word), but each provisional group is
then re-chunked only into consecutive slices of at most `max_words` words —
the max-chars and max-duration limits are not applied in this variant. -/
theorem pause_variant_spec (θ : ℚ) (ws : List WordT) (mw : ℕ)
    (hmw : 1 ≤ mw) :
    detect_natural_pauses_words θ ws = splitAtPausePoints θ ws ∧
    ∀ g : List WordT, (chunkSlices mw g).flatten = g ∧
      ∀ c ∈ chunkSlices mw g, c ≠ [] ∧ c.length ≤ mw := by
  constructor
  · match ws with
    | [] => rfl
    | w :: rest =>
      rw [detect_natural_pauses_words, pauseGroupsAux_eq θ rest [] w]
      rcases hs : splitAtPausePoints θ (w :: rest) with _ | ⟨g, gs⟩
      · exact absurd hs (splitAtPausePoints_ne_nil θ w rest)
      · simp
  · intro g
    exact chunkSlices_flatten_len mw hmw g.length g le_rfl

/-- Witness for C7 (amended): a gap of `0.5 s ≥ 0.3 s` splits two words into
two provisional groups, each re-chunked into one slice. -/
theorem pause_variant_spec_witness :
    detect_natural_pauses_words (3/10) [⟨['h', 'i'], 0, 1⟩, ⟨['y', 'o'], 3/2, 2⟩] =
      splitAtPausePoints (3/10) [⟨['h', 'i'], 0, 1⟩, ⟨['y', 'o'], 3/2, 2⟩] ∧
    (chunkSlices 3 [⟨['h', 'i'], 0, 1⟩, ⟨['y', 'o'], 3/2, 2⟩]).flatten =
      [⟨['h', 'i'], 0, 1⟩, ⟨['y', 'o'], 3/2, 2⟩] := by
  have h := pause_variant_spec (3/10)
    [⟨['h', 'i'], 0, 1⟩, ⟨['y', 'o'], 3/2, 2⟩] 3 (by norm_num)
  exact ⟨h.1, (h.2 [⟨['h', 'i'], 0, 1⟩, ⟨['y', 'o'], 3/2, 2⟩]).1⟩

/-! ## `subtitle_service.py create_segments_from_a4f_result` -/

/-- One segment emission of `create_segments_from_a4f_result`:
`segment_text = ' '.join(current_words)`,
`duration = max(1.5, len(current_words) / 2.2)`, a `0.2` s gap added first
when the emitting word index `i` is positive; returns the emitted segment and
the advanced `current_time`. -/
def a4fEmit (i : ℕ) (ct : ℚ) (cw : List Str) : Seg × ℚ :=
  let duration := max (3/2) ((cw.length : ℚ) / (11/5))
  let ct1 := if 0 < i then ct + 1/5 else ct
  (⟨ct1, ct1 + duration, pyStrip (joinSp cw)⟩, ct1 + duration)

/-- The loop of `create_segments_from_a4f_result` over the word list
(`i` the running word index, `n` the total word count, `ct = current_time`,
`cw = current_words`, `wc = word_count`); the trailing
`if i == len(words) - 1 and current_words:` block runs inside both
branches. -/
def a4fAux (maxW n : ℕ) : ℕ → ℚ → List Str → ℕ → List Str → List Seg
  | _, _, _, _, [] => []
  | i, ct, cw, wc, word :: rest =>
    if wc < maxW then
      (if i = n - 1 ∧ ¬(cw ++ [word]).isEmpty then
        [(a4fEmit i ct (cw ++ [word])).1]
      else []) ++ a4fAux maxW n (i + 1) ct (cw ++ [word]) (wc + 1) rest
    else
      (a4fEmit i ct cw).1 ::
        ((if i = n - 1 ∧ ¬([word] : List Str).isEmpty then
          [(a4fEmit i (a4fEmit i ct cw).2 [word]).1]
        else []) ++ a4fAux maxW n (i + 1) (a4fEmit i ct cw).2 [word] 1 rest)

/-- `subtitle_service.py create_segments_from_a4f_result(result, …,
max_words)`: strip the full text, split it into words, and pace segments
synthetically (`words_per_second = 2.2`, gap `0.2`, duration floor `1.5`). -/
def create_segments_from_a4f_result (text : Str) (max_words : ℕ) : List Seg :=
  let full_text := pyStrip text
  if full_text.isEmpty then []
  else
    let words := pySplit full_text
    if words.isEmpty then [⟨0, 10, full_text⟩]
    else a4fAux max_words words.length 0 0 [] 0 words

theorem a4fAux_nil {maxW n : ℕ} (i : ℕ) (ct : ℚ) (cw : List Str) (wc : ℕ) :
    a4fAux maxW n i ct cw wc [] = [] := by
  rw [a4fAux]

theorem a4fAux_cons {maxW n : ℕ} (i : ℕ) (ct : ℚ) (cw : List Str) (wc : ℕ)
    (word : Str) (rest : List Str) :
    a4fAux maxW n i ct cw wc (word :: rest) =
      if wc < maxW then
        (if i = n - 1 ∧ ¬(cw ++ [word]).isEmpty then
          [(a4fEmit i ct (cw ++ [word])).1]
        else []) ++ a4fAux maxW n (i + 1) ct (cw ++ [word]) (wc + 1) rest
      else
        (a4fEmit i ct cw).1 ::
          ((if i = n - 1 ∧ ¬([word] : List Str).isEmpty then
            [(a4fEmit i (a4fEmit i ct cw).2 [word]).1]
          else []) ++ a4fAux maxW n (i + 1) (a4fEmit i ct cw).2 [word] 1 rest) := by
  rw [a4fAux]

/-- C8 counterexample: on full text `"a b c d"` with `max_words = 3` the
fallback emits `[(0.2, 1.7, "a b c"), (1.9, 3.4, "d")]`: the first segment
starts at `0.2`, not `0`, and its duration is the floored `max(1.5, 3/2.2) =
1.5`, not three times the claimed per-word `1/2.2`. -/
theorem a4f_counterexample :
    create_segments_from_a4f_result ['a', ' ', 'b', ' ', 'c', ' ', 'd'] 3 =
      [⟨1/5, 17/10, ['a', ' ', 'b', ' ', 'c']⟩, ⟨19/10, 17/5, ['d']⟩] ∧
    (1:ℚ)/5 ≠ 0 ∧ (17:ℚ)/10 - 1/5 ≠ 3 * (1 / (11/5)) := by
  refine ⟨?_, by norm_num, by norm_num⟩
  have h1 : pyStrip ['a', ' ', 'b', ' ', 'c', ' ', 'd'] =
      ['a', ' ', 'b', ' ', 'c', ' ', 'd'] := by decide
  have h2 : pySplit ['a', ' ', 'b', ' ', 'c', ' ', 'd'] =
      [['a'], ['b'], ['c'], ['d']] := by decide
  have h3 : pyStrip (joinSp [['a'], ['b'], ['c']]) =
      ['a', ' ', 'b', ' ', 'c'] := by decide
  have h4 : pyStrip (joinSp [['d']]) = ['d'] := by decide
  rw [create_segments_from_a4f_result]
  simp only [h1, h2, List.isEmpty_cons, Bool.false_eq_true, if_false]
  simp only [a4fAux, a4fEmit, List.nil_append, List.singleton_append,
    List.cons_append, List.append_nil]
  norm_num [h3, h4]

/-! ## Tokenisation toolkit for the Segmenter coverage and bound claims -/

/-- `t` contains no whitespace character. -/
def NoWS (t : Str) : Prop := ∀ c ∈ t, c.isWhitespace = false

/-- A non-empty whitespace-free token. -/
def GoodTok (t : Str) : Prop := t ≠ [] ∧ NoWS t

/-- `s` begins and ends with a non-whitespace character. -/
def Anchored (s : Str) : Prop :=
  (∃ c cs, s = c :: cs ∧ c.isWhitespace = false) ∧
  (∃ c cs, s.reverse = c :: cs ∧ c.isWhitespace = false)

theorem modifyHead_append {α : Type} (f : List α → List α)
    (l l' : List (List α)) (h : l ≠ []) :
    (l ++ l').modifyHead f = l.modifyHead f ++ l' := by
  cases l with
  | nil => exact absurd rfl h
  | cons x xs => rfl

theorem splitOnP_sep_append {α : Type} (p : α → Bool) (a b : List α)
    (sep : α) (hsep : p sep = true) :
    (a ++ sep :: b).splitOnP p = a.splitOnP p ++ b.splitOnP p := by
  induction a with
  | nil =>
    rw [List.nil_append, List.splitOnP_cons, if_pos hsep, List.splitOnP_nil,
      List.cons_append, List.nil_append]
  | cons x xs ih =>
    rw [List.cons_append, List.splitOnP_cons, List.splitOnP_cons]
    by_cases hx : p x = true
    · rw [if_pos hx, if_pos hx, ih, List.cons_append]
    · rw [if_neg hx, if_neg hx, ih,
        modifyHead_append _ _ _ (List.splitOnP_ne_nil p xs)]

theorem pySplit_nil : pySplit [] = [] := rfl

theorem pySplit_sep_append (a b : Str) :
    pySplit (a ++ ' ' :: b) = pySplit a ++ pySplit b := by
  rw [pySplit, pySplit, pySplit,
    splitOnP_sep_append Char.isWhitespace a b ' ' (by decide),
    List.filter_append]

theorem pySplit_single {t : Str} (h : GoodTok t) : pySplit t = [t] := by
  rw [pySplit, List.splitOnP_eq_single]
  · have : t.isEmpty = false := by
      cases t with
      | nil => exact absurd rfl h.1
      | cons c cs => rfl
    simp [List.filter, this]
  · intro x hx
    simp [h.2 x hx]

theorem joinSp_single (t : Str) : joinSp [t] = t := by
  simp [joinSp, List.intercalate]

theorem joinSp_cons_cons (t t' : Str) (rest : List Str) :
    joinSp (t :: t' :: rest) = t ++ ' ' :: joinSp (t' :: rest) := by
  simp [joinSp, List.intercalate]

theorem pySplit_joinSp : ∀ ts : List Str,
    pySplit (joinSp ts) = ts.flatMap pySplit
  | [] => rfl
  | [t] => by rw [joinSp_single]; simp
  | t :: t' :: rest => by
    rw [joinSp_cons_cons, pySplit_sep_append, pySplit_joinSp (t' :: rest)]
    simp

theorem anchored_of_goodTok {t : Str} (h : GoodTok t) : Anchored t := by
  obtain ⟨hne, hnws⟩ := h
  constructor
  · cases t with
    | nil => exact absurd rfl hne
    | cons c cs => exact ⟨c, cs, rfl, hnws c (List.mem_cons_self c cs)⟩
  · have hrne : t.reverse ≠ [] := by
      simpa using hne
    cases hr : t.reverse with
    | nil => exact absurd hr hrne
    | cons c cs =>
      refine ⟨c, cs, rfl, hnws c ?_⟩
      rw [← List.mem_reverse, hr]
      exact List.mem_cons_self c cs

theorem pyStrip_anchored {s : Str} (h : Anchored s) : pyStrip s = s := by
  obtain ⟨⟨c, cs, hs, hc⟩, ⟨d, ds, hr, hd⟩⟩ := h
  rw [pyStrip, hs, List.dropWhile_cons, if_neg (by simp [hc]), ← hs, hr,
    List.dropWhile_cons, if_neg (by simp [hd]), ← hr, List.reverse_reverse]

theorem anchored_ne_nil {s : Str} (h : Anchored s) : s ≠ [] := by
  obtain ⟨⟨c, cs, hs, -⟩, -⟩ := h
  rw [hs]
  exact List.cons_ne_nil c cs

theorem anchored_append_tok {a t : Str} (ha : Anchored a) (ht : GoodTok t) :
    Anchored (a ++ ' ' :: t) := by
  obtain ⟨⟨c, cs, hs, hc⟩, -⟩ := ha
  obtain ⟨-, ⟨d, ds, hrt, hd⟩⟩ := anchored_of_goodTok ht
  constructor
  · exact ⟨c, cs ++ ' ' :: t, by rw [hs, List.cons_append], hc⟩
  · refine ⟨d, ds ++ ' ' :: a.reverse, ?_, hd⟩
    rw [List.reverse_append, List.reverse_cons, List.append_assoc, hrt]
    simp

/-- The filter of the coverage claim: a word's contribution is its stripped
text, skipped when empty. -/
def trimTok (w : WordT) : Option Str :=
  if (pyStrip w.word).isEmpty then none else some (pyStrip w.word)

/-- Coverage invariant for the segmenter loop: the emitted cues' texts
tokenise to the accumulated tokens followed by the stripped texts of the
remaining words. -/
theorem ssw_tokens_aux (mc : ℕ) (md : ℚ) (mw : ℕ) :
    ∀ ws : List WordT, (∀ w ∈ ws, NoWS (pyStrip w.word)) →
      (∀ a : SegAcc, Anchored a.text →
        (sswAux mc md mw (some a) ws).flatMap (fun c => pySplit c.text) =
          pySplit a.text ++ ws.filterMap trimTok) ∧
      (sswAux mc md mw none ws).flatMap (fun c => pySplit c.text) =
        ws.filterMap trimTok := by
  intro ws
  induction ws with
  | nil =>
    intro _
    constructor
    · intro a ha
      rw [sswAux_nil_some, flushAcc, pyStrip_anchored ha]
      have hne : a.text.isEmpty = false := by
        cases htext : a.text with
        | nil => exact absurd htext (anchored_ne_nil ha)
        | cons c cs => rfl
      rw [hne]
      simp
    · simp [sswAux_nil_none]
  | cons w ws ih =>
    intro H
    have hw := H w (List.mem_cons_self w ws)
    have Hws : ∀ u ∈ ws, NoWS (pyStrip u.word) :=
      fun u hu => H u (List.mem_cons_of_mem w hu)
    obtain ⟨ihsome, ihnone⟩ := ih Hws
    by_cases htok : (pyStrip w.word).isEmpty = true
    · have htt : trimTok w = none := by rw [trimTok, if_pos htok]
      constructor
      · intro a ha
        rw [sswAux_cons_skip _ _ htok, List.filterMap_cons, htt]
        exact ihsome a ha
      · rw [sswAux_cons_skip _ _ htok, List.filterMap_cons, htt]
        exact ihnone
    · rw [Bool.not_eq_true] at htok
      have hgood : GoodTok (pyStrip w.word) := by
        refine ⟨?_, hw⟩
        intro hnil
        rw [hnil] at htok
        simp at htok
      have htt : trimTok w = some (pyStrip w.word) := by
        rw [trimTok, if_neg (by simp [htok])]
      have hfresh :
          (sswAux mc md mw (some ⟨pyStrip w.word, w.start, w.«end», 1⟩) ws).flatMap
              (fun c => pySplit c.text) =
            pyStrip w.word :: ws.filterMap trimTok := by
        rw [ihsome ⟨pyStrip w.word, w.start, w.«end», 1⟩
          (anchored_of_goodTok hgood)]
        rw [show (⟨pyStrip w.word, w.start, w.«end», 1⟩ : SegAcc).text =
          pyStrip w.word from rfl, pySplit_single hgood]
        rfl
      constructor
      · intro a ha
        by_cases hcond : mw ≤ a.count ∨
            mc < (a.text ++ ' ' :: pyStrip w.word).length ∨
            md < w.«end» - a.start
        · rw [sswAux_cons_close _ _ htok hcond, List.flatMap_append, hfresh,
            List.filterMap_cons, htt]
          have hflush : (flushAcc a).flatMap (fun c => pySplit c.text) =
              pySplit a.text := by
            rw [flushAcc, pyStrip_anchored ha]
            have hne : a.text.isEmpty = false := by
              cases htext : a.text with
              | nil => exact absurd htext (anchored_ne_nil ha)
              | cons c cs => rfl
            rw [hne]
            simp
          rw [hflush]
        · rw [sswAux_cons_extend _ _ htok hcond]
          rw [ihsome ⟨a.text ++ ' ' :: pyStrip w.word, a.start, w.«end»,
            a.count + 1⟩ (anchored_append_tok ha hgood)]
          rw [show (⟨a.text ++ ' ' :: pyStrip w.word, a.start, w.«end»,
            a.count + 1⟩ : SegAcc).text = a.text ++ ' ' :: pyStrip w.word
            from rfl]
          rw [pySplit_sep_append, pySplit_single hgood, List.filterMap_cons,
            htt, List.append_assoc]
          rfl
      · rw [sswAux_cons_none _ htok, hfresh, List.filterMap_cons, htt]

/-- The bound properties of one emitted cue (C4): token count within
`max_words`, and the char/duration limits hold except for single-word cues,
which are a single input word taken verbatim. -/
def CueOK (mc : ℕ) (md : ℚ) (mw : ℕ) (words : List WordT) (cue : Seg) :
    Prop :=
  1 ≤ (pySplit cue.text).length ∧ (pySplit cue.text).length ≤ mw ∧
  (2 ≤ (pySplit cue.text).length →
    cue.text.length ≤ mc ∧ cue.«end» - cue.start ≤ md) ∧
  ((pySplit cue.text).length = 1 →
    ∃ w ∈ words, cue.text = pyStrip w.word ∧ cue.start = w.start ∧
      cue.«end» = w.«end»)

/-- The loop invariant of the segmenter accumulator for the bound claim. -/
def AccInv (mc : ℕ) (md : ℚ) (mw : ℕ) (words : List WordT) (a : SegAcc) :
    Prop :=
  Anchored a.text ∧ (pySplit a.text).length = a.count ∧
  1 ≤ a.count ∧ a.count ≤ mw ∧
  (2 ≤ a.count → a.text.length ≤ mc ∧ a.stop - a.start ≤ md) ∧
  (a.count = 1 → ∃ w ∈ words, a.text = pyStrip w.word ∧ a.start = w.start ∧
    a.stop = w.«end»)

theorem flushAcc_cueOK {mc : ℕ} {md : ℚ} {mw : ℕ} {words : List WordT}
    {a : SegAcc} (ha : AccInv mc md mw words a) :
    ∀ cue ∈ flushAcc a, CueOK mc md mw words cue := by
  obtain ⟨hanc, htoks, h1, h2, h3, h4⟩ := ha
  intro cue hc
  rw [flushAcc, pyStrip_anchored hanc] at hc
  have hne : a.text.isEmpty = false := by
    cases htext : a.text with
    | nil => exact absurd htext (anchored_ne_nil hanc)
    | cons c cs => rfl
  rw [hne] at hc
  simp only [Bool.false_eq_true, if_false, List.mem_singleton] at hc
  subst hc
  exact ⟨htoks ▸ h1, htoks ▸ h2, fun hh => h3 (htoks ▸ hh),
    fun hh => h4 (htoks ▸ hh)⟩

theorem accInv_fresh {mc : ℕ} {md : ℚ} {mw : ℕ} {words : List WordT}
    (hmw : 1 ≤ mw) {w : WordT} (hw : w ∈ words)
    (hgood : GoodTok (pyStrip w.word)) :
    AccInv mc md mw words ⟨pyStrip w.word, w.start, w.«end», 1⟩ := by
  refine ⟨anchored_of_goodTok hgood, ?_, le_rfl, hmw, ?_, ?_⟩
  · show (pySplit (pyStrip w.word)).length = 1
    rw [pySplit_single hgood]
    rfl
  · intro hh
    have hh' : 2 ≤ 1 := hh
    omega
  · intro _
    exact ⟨w, hw, rfl, rfl, rfl⟩

/-- The bound invariant for the segmenter loop. -/
theorem ssw_bounds_aux (mc : ℕ) (md : ℚ) (mw : ℕ) (hmw : 1 ≤ mw)
    (words : List WordT) :
    ∀ ws : List WordT, (∀ w ∈ ws, w ∈ words) →
      (∀ w ∈ ws, NoWS (pyStrip w.word)) →
      (∀ a : SegAcc, AccInv mc md mw words a →
        ∀ cue ∈ sswAux mc md mw (some a) ws, CueOK mc md mw words cue) ∧
      (∀ cue ∈ sswAux mc md mw none ws, CueOK mc md mw words cue) := by
  intro ws
  induction ws with
  | nil =>
    intro _ _
    constructor
    · intro a ha cue hc
      rw [sswAux_nil_some] at hc
      exact flushAcc_cueOK ha cue hc
    · intro cue hc
      rw [sswAux_nil_none] at hc
      simp at hc
  | cons w ws ih =>
    intro Hsub H
    have hwsub := Hsub w (List.mem_cons_self w ws)
    have hw := H w (List.mem_cons_self w ws)
    obtain ⟨ihsome, ihnone⟩ := ih
      (fun u hu => Hsub u (List.mem_cons_of_mem w hu))
      (fun u hu => H u (List.mem_cons_of_mem w hu))
    by_cases htok : (pyStrip w.word).isEmpty = true
    · constructor
      · intro a ha cue hc
        rw [sswAux_cons_skip _ _ htok] at hc
        exact ihsome a ha cue hc
      · intro cue hc
        rw [sswAux_cons_skip _ _ htok] at hc
        exact ihnone cue hc
    · rw [Bool.not_eq_true] at htok
      have hgood : GoodTok (pyStrip w.word) := by
        refine ⟨?_, hw⟩
        intro hnil
        rw [hnil] at htok
        simp at htok
      constructor
      · intro a ha cue hc
        by_cases hcond : mw ≤ a.count ∨
            mc < (a.text ++ ' ' :: pyStrip w.word).length ∨
            md < w.«end» - a.start
        · rw [sswAux_cons_close _ _ htok hcond, List.mem_append] at hc
          rcases hc with hc | hc
          · exact flushAcc_cueOK ha cue hc
          · exact ihsome _ (accInv_fresh hmw hwsub hgood) cue hc
        · push_neg at hcond
          obtain ⟨hcount, hlen, hdur⟩ := hcond
          rw [sswAux_cons_extend _ _ htok
            (by push_neg; exact ⟨hcount, hlen, hdur⟩)] at hc
          refine ihsome _ ?_ cue hc
          obtain ⟨hanc, htoks, h1, h2, h3, h4⟩ := ha
          refine ⟨anchored_append_tok hanc hgood, ?_, ?_, ?_, ?_, ?_⟩
          · show (pySplit (a.text ++ ' ' :: pyStrip w.word)).length =
              a.count + 1
            rw [pySplit_sep_append, pySplit_single hgood,
              List.length_append, htoks]
            rfl
          · show 1 ≤ a.count + 1
            omega
          · show a.count + 1 ≤ mw
            omega
          · intro _
            exact ⟨hlen, hdur⟩
          · intro hh
            have hh' : a.count + 1 = 1 := hh
            omega
      · intro cue hc
        rw [sswAux_cons_none _ htok] at hc
        exact ihsome _ (accInv_fresh hmw hwsub hgood) cue hc

/-- C3 counterexample: a "word" whose text contains internal whitespace
(`"a b"`) survives as one token in the accumulator but splits into two words
on whitespace, so the claimed coverage equality fails as stated. -/
theorem ssw_coverage_counterexample :
    pySplit (joinSp ((split_segment_by_words
        [⟨['a', ' ', 'b'], 0, 1⟩] 45 5 2).map (·.text))) ≠
      [⟨['a', ' ', 'b'], 0, 1⟩].filterMap trimTok := by
  intro h
  have h1 : split_segment_by_words [⟨['a', ' ', 'b'], 0, 1⟩] 45 5 2 =
      [⟨0, 1, ['a', ' ', 'b']⟩] := by
    show sswAux 45 5 2 none [⟨['a', ' ', 'b'], 0, 1⟩] = _
    rw [sswAux_cons_none _ (by decide), sswAux_nil_some]
    have hs : pyStrip (pyStrip ['a', ' ', 'b']) = ['a', ' ', 'b'] := by decide
    simp only [flushAcc, hs, List.isEmpty_cons, Bool.false_eq_true, if_false]
  rw [h1] at h
  have h2 : pySplit (joinSp
      (([⟨0, 1, ['a', ' ', 'b']⟩] : List Seg).map (·.text))) =
      [['a'], ['b']] := by decide
  have h3 : ([⟨['a', ' ', 'b'], 0, 1⟩] : List WordT).filterMap trimTok =
      [['a', ' ', 'b']] := by decide
  rw [h2, h3] at h
  simp at h

/-- C3 (amended): provided every input word's trimmed text is free of
internal whitespace, the segmenter's output cue texts, joined with spaces and
split on whitespace, are exactly the non-empty trimmed input words in order
(no word lost, duplicated or reordered; words empty after trimming are
skipped); and on the spec's Scenario A input the cues are exactly
`[("hi there", 0, 0.6), ("friend", 0.6, 1.0)]`. -/
theorem ssw_coverage (words : List WordT) (mc : ℕ) (md : ℚ) (mw : ℕ)
    (H : ∀ w ∈ words, ∀ c ∈ pyStrip w.word, c.isWhitespace = false) :
    pySplit (joinSp ((split_segment_by_words words mc md mw).map (·.text))) =
      words.filterMap trimTok ∧
    split_segment_by_words
        [⟨['h', 'i'], 0, 3/10⟩, ⟨['t', 'h', 'e', 'r', 'e'], 3/10, 3/5⟩,
          ⟨['f', 'r', 'i', 'e', 'n', 'd'], 3/5, 1⟩] 45 5 2 =
      [⟨0, 3/5, ['h', 'i', ' ', 't', 'h', 'e', 'r', 'e']⟩,
        ⟨3/5, 1, ['f', 'r', 'i', 'e', 'n', 'd']⟩] := by
  constructor
  · rw [pySplit_joinSp, List.flatMap_map]
    exact (ssw_tokens_aux mc md mw words H).2
  · show sswAux 45 5 2 none _ = _
    rw [sswAux_cons_none _ (by decide)]
    rw [sswAux_cons_extend _ _ (by decide) ?hc2]
    case hc2 =>
      rintro (h | h | h)
      · exact absurd h (by decide)
      · exact absurd h (by decide)
      · norm_num at h
    rw [sswAux_cons_close _ _ (by decide) (Or.inl (by decide))]
    rw [sswAux_nil_some]
    have hs1 : pyStrip (pyStrip ['h', 'i'] ++ ' ' ::
        pyStrip ['t', 'h', 'e', 'r', 'e']) =
        ['h', 'i', ' ', 't', 'h', 'e', 'r', 'e'] := by decide
    have hs2 : pyStrip (pyStrip ['f', 'r', 'i', 'e', 'n', 'd']) =
        ['f', 'r', 'i', 'e', 'n', 'd'] := by decide
    simp only [flushAcc, hs1, hs2, List.isEmpty_cons, Bool.false_eq_true,
      if_false]
    simp

/-- Witness for C3 (amended): the coverage equality evaluated on the spec's
Scenario A input. -/
theorem ssw_coverage_witness :
    pySplit (joinSp ((split_segment_by_words
        [⟨['h', 'i'], 0, 3/10⟩, ⟨['t', 'h', 'e', 'r', 'e'], 3/10, 3/5⟩,
          ⟨['f', 'r', 'i', 'e', 'n', 'd'], 3/5, 1⟩] 45 5 2).map (·.text))) =
      [⟨['h', 'i'], 0, 3/10⟩, ⟨['t', 'h', 'e', 'r', 'e'], 3/10, 3/5⟩,
        ⟨['f', 'r', 'i', 'e', 'n', 'd'], 3/5, 1⟩].filterMap trimTok :=
  (ssw_coverage
    [⟨['h', 'i'], 0, 3/10⟩, ⟨['t', 'h', 'e', 'r', 'e'], 3/10, 3/5⟩,
      ⟨['f', 'r', 'i', 'e', 'n', 'd'], 3/5, 1⟩] 45 5 2 (by decide)).1

/-- C4 counterexample: a "word" with internal whitespace defeats the
word-count bound as literally stated — with `max_words = 1` the single cue's
text `"a b"` holds two whitespace-words. -/
theorem ssw_bounds_counterexample :
    split_segment_by_words [⟨['a', ' ', 'b'], 0, 1⟩] 45 5 1 =
      [⟨0, 1, ['a', ' ', 'b']⟩] ∧
    (pySplit ['a', ' ', 'b']).length = 2 := by
  constructor
  · show sswAux 45 5 1 none [⟨['a', ' ', 'b'], 0, 1⟩] = _
    rw [sswAux_cons_none _ (by decide), sswAux_nil_some]
    have hs : pyStrip (pyStrip ['a', ' ', 'b']) = ['a', ' ', 'b'] := by decide
    simp only [flushAcc, hs, List.isEmpty_cons, Bool.false_eq_true, if_false]
  · decide

/-- C4 (amended): provided every input word's trimmed text is free of
internal whitespace and `max_words ≥ 1`, `max_chars ≥ 1`, `max_duration > 0`,
every output cue has between `1` and `max_words` whitespace-words; a cue of
two or more words respects both the char and the duration bound; a
single-word cue is one input word taken verbatim (so only a single word alone
can violate a bound); and the cue is closed before adding a new word exactly
when the accumulated count has reached `max_words`, the merged text length
exceeds `max_chars`, or the merged duration exceeds `max_duration`. -/
theorem ssw_bounds (words : List WordT) (mc : ℕ) (md : ℚ) (mw : ℕ)
    (hmw : 1 ≤ mw) (hmc : 1 ≤ mc) (hmd : 0 < md)
    (H : ∀ w ∈ words, ∀ c ∈ pyStrip w.word, c.isWhitespace = false) :
    (∀ cue ∈ split_segment_by_words words mc md mw,
      1 ≤ (pySplit cue.text).length ∧ (pySplit cue.text).length ≤ mw ∧
      (2 ≤ (pySplit cue.text).length →
        cue.text.length ≤ mc ∧ cue.«end» - cue.start ≤ md) ∧
      ((pySplit cue.text).length = 1 →
        ∃ w ∈ words, cue.text = pyStrip w.word ∧ cue.start = w.start ∧
          cue.«end» = w.«end»)) ∧
    (∀ (a : SegAcc) (w : WordT) (ws : List WordT),
      (pyStrip w.word).isEmpty = false →
      (mw ≤ a.count ∨ mc < (a.text ++ ' ' :: pyStrip w.word).length ∨
        md < w.«end» - a.start) →
      sswAux mc md mw (some a) (w :: ws) =
        flushAcc a ++
          sswAux mc md mw (some ⟨pyStrip w.word, w.start, w.«end», 1⟩) ws) := by
  constructor
  · intro cue hc
    exact (ssw_bounds_aux mc md mw hmw words words (fun u hu => hu) H).2
      cue hc
  · intro a w ws h hcond
    exact sswAux_cons_close a ws h hcond

/-- Witness for C4 (amended): the single cue produced from the word
`("hi", 0, 1)` with `max_words = 3` has one whitespace-word, within the
bound. -/
theorem ssw_bounds_witness :
    1 ≤ (pySplit ((⟨0, 1, ['h', 'i']⟩ : Seg).text)).length ∧
    (pySplit ((⟨0, 1, ['h', 'i']⟩ : Seg).text)).length ≤ 3 := by
  have hmem : (⟨0, 1, ['h', 'i']⟩ : Seg) ∈
      split_segment_by_words [⟨['h', 'i'], 0, 1⟩] 45 5 3 := by
    show _ ∈ sswAux 45 5 3 none [⟨['h', 'i'], 0, 1⟩]
    rw [sswAux_cons_none _ (by decide), sswAux_nil_some]
    have hs : pyStrip (pyStrip ['h', 'i']) = ['h', 'i'] := by decide
    simp only [flushAcc, hs, List.isEmpty_cons, Bool.false_eq_true, if_false]
    exact List.mem_singleton.mpr rfl
  have h := (ssw_bounds [⟨['h', 'i'], 0, 1⟩] 45 5 3 (by omega) (by omega)
    (by norm_num) (by decide)).1 _ hmem
  exact ⟨h.1, h.2.1⟩

/-! ## The a4f pacing invariant, pinned to the emitted cue texts -/

theorem anchored_append_anchored {a b : Str} (ha : Anchored a)
    (hb : Anchored b) : Anchored (a ++ ' ' :: b) := by
  obtain ⟨⟨c, cs, hs, hc⟩, -⟩ := ha
  obtain ⟨-, ⟨d, ds, hrb, hd⟩⟩ := hb
  constructor
  · exact ⟨c, cs ++ ' ' :: b, by rw [hs, List.cons_append], hc⟩
  · refine ⟨d, ds ++ ' ' :: a.reverse, ?_, hd⟩
    rw [List.reverse_append, List.reverse_cons, List.append_assoc, hrb]
    simp

theorem anchored_joinSp : ∀ cw : List Str, cw ≠ [] →
    (∀ t ∈ cw, GoodTok t) → Anchored (joinSp cw)
  | [], h, _ => absurd rfl h
  | [t], _, hg => by
    rw [joinSp_single]
    exact anchored_of_goodTok (hg t (List.mem_singleton.mpr rfl))
  | t :: t' :: rest, _, hg => by
    rw [joinSp_cons_cons]
    exact anchored_append_anchored
      (anchored_of_goodTok (hg t (List.mem_cons_self _ _)))
      (anchored_joinSp (t' :: rest) (List.cons_ne_nil _ _)
        (fun u hu => hg u (List.mem_cons_of_mem t hu)))

theorem flatMap_pySplit : ∀ cw : List Str, (∀ t ∈ cw, GoodTok t) →
    cw.flatMap pySplit = cw
  | [], _ => rfl
  | t :: rest, hg => by
    rw [List.flatMap_cons, pySplit_single (hg t (List.mem_cons_self t rest)),
      flatMap_pySplit rest (fun u hu => hg u (List.mem_cons_of_mem t hu))]
    rfl

/-- A space-join of non-empty whitespace-free tokens strips to itself and
splits back into exactly those tokens: the emitted cue text's whitespace-word
count is the chunk's word count. -/
theorem pySplit_pyStrip_joinSp (cw : List Str) (hne : cw ≠ [])
    (hg : ∀ t ∈ cw, GoodTok t) : pySplit (pyStrip (joinSp cw)) = cw := by
  rw [pyStrip_anchored (anchored_joinSp cw hne hg), pySplit_joinSp,
    flatMap_pySplit cw hg]

/-- The invariant proof for the a4f loop, for calls after the first word
(`1 ≤ i`), with the accumulated and remaining words non-empty and
whitespace-free: every emitted segment's text splits into between `1` and
`maxW` whitespace-words and its duration is `max(1.5, k/2.2)` for exactly
that word count `k`; consecutive segments are separated by exactly the `0.2`
gap; and the first emitted segment starts `0.2` after the incoming
`current_time`. -/
theorem a4fAux_spec (maxW : ℕ) (hmw : 1 ≤ maxW) (n : ℕ) :
    ∀ (rem : List Str) (i : ℕ) (ct : ℚ) (cw : List Str) (wc : ℕ),
      wc = cw.length → 1 ≤ wc → wc ≤ maxW → 1 ≤ i →
      n = i + rem.length →
      (∀ t ∈ cw, GoodTok t) → (∀ t ∈ rem, GoodTok t) →
      (∀ s ∈ a4fAux maxW n i ct cw wc rem,
        1 ≤ (pySplit s.text).length ∧ (pySplit s.text).length ≤ maxW ∧
        s.«end» - s.start =
          max (3/2) (((pySplit s.text).length : ℚ) / (11/5))) ∧
      List.Chain' (fun a b => b.start = a.«end» + 1/5)
        (a4fAux maxW n i ct cw wc rem) ∧
      (∀ s, (a4fAux maxW n i ct cw wc rem).head? = some s →
        s.start = ct + 1/5) := by
  intro rem
  induction rem with
  | nil =>
    intro i ct cw wc _ _ _ _ _ _ _
    refine ⟨?_, ?_, ?_⟩ <;> simp [a4fAux]
  | cons word rest ih =>
    intro i ct cw wc hwc h1wc hwcmw h1i hn hcw hrem
    have hi0 : 0 < i := h1i
    have hword : GoodTok word := hrem word (List.mem_cons_self word rest)
    have hrest : ∀ t ∈ rest, GoodTok t :=
      fun t ht => hrem t (List.mem_cons_of_mem word ht)
    have hcw' : ∀ t ∈ cw ++ [word], GoodTok t := by
      intro t ht
      rcases List.mem_append.mp ht with ht | ht
      · exact hcw t ht
      · rcases List.mem_singleton.mp ht with rfl
        exact hword
    have hcwne : cw ≠ [] := by
      intro hh
      rw [hh] at hwc
      simp at hwc
      omega
    by_cases hlt : wc < maxW
    · rcases rest with _ | ⟨r, rs⟩
      · -- last word: the final-segment block fires
        have hcond : i = n - 1 ∧ ¬(cw ++ [word]).isEmpty = true := by
          constructor
          · simp only [List.length_cons, List.length_nil] at hn
            omega
          · simp
        rw [a4fAux_cons, if_pos hlt, if_pos hcond, a4fAux_nil]
        have hsplit : pySplit (pyStrip (joinSp (cw ++ [word]))) =
            cw ++ [word] :=
          pySplit_pyStrip_joinSp (cw ++ [word]) (by simp) hcw'
        refine ⟨?_, ?_, ?_⟩
        · intro s hs
          simp only [List.append_nil, List.mem_singleton] at hs
          subst hs
          refine ⟨?_, ?_, ?_⟩
          · show 1 ≤ (pySplit (pyStrip (joinSp (cw ++ [word])))).length
            rw [hsplit]
            simp only [List.length_append, List.length_cons, List.length_nil]
            omega
          · show (pySplit (pyStrip (joinSp (cw ++ [word])))).length ≤ maxW
            rw [hsplit]
            simp only [List.length_append, List.length_cons, List.length_nil]
            omega
          · show (if 0 < i then ct + 1/5 else ct) +
                max (3/2) (((cw ++ [word]).length : ℚ) / (11/5)) -
              (if 0 < i then ct + 1/5 else ct) =
              max (3/2)
                (((pySplit (pyStrip (joinSp (cw ++ [word])))).length : ℚ) /
                  (11/5))
            rw [hsplit, if_pos hi0]
            ring
        · simp
        · intro s hs
          simp only [List.append_nil, List.head?_cons, Option.some_inj] at hs
          subst hs
          show (if 0 < i then ct + 1/5 else ct) = ct + 1/5
          rw [if_pos hi0]
      · -- not the last word: no emission, continue accumulating
        have hcond : ¬(i = n - 1 ∧ ¬(cw ++ [word]).isEmpty = true) := by
          rintro ⟨hi, -⟩
          simp only [List.length_cons] at hn
          omega
        rw [a4fAux_cons, if_pos hlt, if_neg hcond, List.nil_append]
        refine ih (i + 1) ct (cw ++ [word]) (wc + 1)
          (by simp [hwc]) (by omega) (by omega) (by omega) ?_ hcw' hrest
        simp only [List.length_cons] at hn ⊢
        omega
    · -- word_count reached max_words: emit the accumulated chunk
      have hsplit1 : pySplit (pyStrip (joinSp cw)) = cw :=
        pySplit_pyStrip_joinSp cw hcwne hcw
      rcases rest with _ | ⟨r, rs⟩
      · -- also the last word: the final-segment block fires too
        have hcond : i = n - 1 ∧ ¬([word] : List Str).isEmpty = true := by
          constructor
          · simp only [List.length_cons, List.length_nil] at hn
            omega
          · simp
        rw [a4fAux_cons, if_neg hlt, if_pos hcond, a4fAux_nil]
        simp only [List.append_nil]
        have hsplitF : pySplit (pyStrip (joinSp [word])) = [word] :=
          pySplit_pyStrip_joinSp [word] (by simp) (by
            intro t ht
            rcases List.mem_singleton.mp ht with rfl
            exact hword)
        refine ⟨?_, ?_, ?_⟩
        · intro s hs
          rcases List.mem_cons.mp hs with rfl | hs
          · refine ⟨?_, ?_, ?_⟩
            · show 1 ≤ (pySplit (pyStrip (joinSp cw))).length
              rw [hsplit1]
              omega
            · show (pySplit (pyStrip (joinSp cw))).length ≤ maxW
              rw [hsplit1]
              omega
            · show (if 0 < i then ct + 1/5 else ct) +
                  max (3/2) ((cw.length : ℚ) / (11/5)) -
                (if 0 < i then ct + 1/5 else ct) =
                max (3/2)
                  (((pySplit (pyStrip (joinSp cw))).length : ℚ) / (11/5))
              rw [hsplit1, if_pos hi0]
              ring
          · rcases List.mem_singleton.mp hs with rfl
            refine ⟨?_, ?_, ?_⟩
            · show 1 ≤ (pySplit (pyStrip (joinSp [word]))).length
              rw [hsplitF]
              simp
            · show (pySplit (pyStrip (joinSp [word]))).length ≤ maxW
              rw [hsplitF]
              simpa using hmw
            · show (if 0 < i then (a4fEmit i ct cw).2 + 1/5
                    else (a4fEmit i ct cw).2) +
                  max (3/2) ((([word] : List Str).length : ℚ) / (11/5)) -
                (if 0 < i then (a4fEmit i ct cw).2 + 1/5
                  else (a4fEmit i ct cw).2) =
                max (3/2)
                  (((pySplit (pyStrip (joinSp [word]))).length : ℚ) / (11/5))
              rw [hsplitF, if_pos hi0]
              ring
        · refine List.chain'_cons.mpr ⟨?_, by simp⟩
          show (if 0 < i then (a4fEmit i ct cw).2 + 1/5
              else (a4fEmit i ct cw).2) =
            (if 0 < i then ct + 1/5 else ct) +
              max (3/2) ((cw.length : ℚ) / (11/5)) + 1/5
          rw [if_pos hi0]
          rfl
        · intro s hs
          simp only [List.head?_cons, Option.some_inj] at hs
          subst hs
          show (if 0 < i then ct + 1/5 else ct) = ct + 1/5
          rw [if_pos hi0]
      · -- emit, then continue with the new single-word accumulator
        have hcond : ¬(i = n - 1 ∧ ¬([word] : List Str).isEmpty = true) := by
          rintro ⟨hi, -⟩
          simp only [List.length_cons] at hn
          omega
        rw [a4fAux_cons, if_neg hlt, if_neg hcond, List.nil_append]
        have hrec := ih (i + 1) (a4fEmit i ct cw).2 [word] 1
          (by simp) le_rfl hmw (by omega)
          (by simp only [List.length_cons] at hn ⊢; omega)
          (by intro t ht
              rcases List.mem_singleton.mp ht with rfl
              exact hword)
          hrest
        refine ⟨?_, ?_, ?_⟩
        · intro s hs
          rcases List.mem_cons.mp hs with rfl | hs
          · refine ⟨?_, ?_, ?_⟩
            · show 1 ≤ (pySplit (pyStrip (joinSp cw))).length
              rw [hsplit1]
              omega
            · show (pySplit (pyStrip (joinSp cw))).length ≤ maxW
              rw [hsplit1]
              omega
            · show (if 0 < i then ct + 1/5 else ct) +
                  max (3/2) ((cw.length : ℚ) / (11/5)) -
                (if 0 < i then ct + 1/5 else ct) =
                max (3/2)
                  (((pySplit (pyStrip (joinSp cw))).length : ℚ) / (11/5))
              rw [hsplit1, if_pos hi0]
              ring
          · exact hrec.1 s hs
        · refine List.chain'_cons'.mpr ⟨?_, hrec.2.1⟩
          intro b hb
          rw [hrec.2.2 b hb]
          show (a4fEmit i ct cw).2 + 1/5 =
            (if 0 < i then ct + 1/5 else ct) +
              max (3/2) ((cw.length : ℚ) / (11/5)) + 1/5
          rfl
        · intro s hs
          simp only [List.head?_cons, Option.some_inj] at hs
          subst hs
          show (if 0 < i then ct + 1/5 else ct) = ct + 1/5
          rw [if_pos hi0]

/-- C8 (amended): the synthetic-pacing fallback splits the stripped full text
into whitespace words and emits *chunks* of up to `max_words` words: every
emitted cue's text holds between `1` and `max_words` whitespace-words and its
duration is `max(1.5, k/2.2)` seconds for exactly its own word count `k` (not
`1/2.2` per word); a `0.2` s gap separates consecutive chunks; and the first
chunk starts at `0` when the whole text is a single word, and at `0.2`
(the gap is applied before the first emission too) when it has more than one
word. -/
theorem a4f_pacing (text : Str) (maxW : ℕ) (hmw : 1 ≤ maxW)
    (hwords : pySplit (pyStrip text) ≠ []) :
    (∀ s ∈ create_segments_from_a4f_result text maxW,
      1 ≤ (pySplit s.text).length ∧ (pySplit s.text).length ≤ maxW ∧
      s.«end» - s.start =
        max (3/2) (((pySplit s.text).length : ℚ) / (11/5))) ∧
    List.Chain' (fun a b => b.start = a.«end» + 1/5)
      (create_segments_from_a4f_result text maxW) ∧
    (∀ s, (create_segments_from_a4f_result text maxW).head? = some s →
      ((pySplit (pyStrip text)).length = 1 → s.start = 0) ∧
      (1 < (pySplit (pyStrip text)).length → s.start = 1/5)) := by
  have hft : ¬(pyStrip text).isEmpty = true := by
    intro h
    rw [List.isEmpty_iff.mp h] at hwords
    exact hwords rfl
  have hgood : ∀ t ∈ pySplit (pyStrip text), GoodTok t :=
    fun t ht => mem_pySplit t ht
  obtain ⟨w0, rest, hw⟩ := List.exists_cons_of_ne_nil hwords
  have hg0 : GoodTok w0 := hgood w0 (by rw [hw]; exact List.mem_cons_self _ _)
  rw [create_segments_from_a4f_result]
  simp only [hft, Bool.false_eq_true, if_false, hw, List.isEmpty_cons]
  rw [a4fAux_cons, if_pos (show 0 < maxW by omega)]
  simp only [List.nil_append]
  rcases rest with _ | ⟨r, rs⟩
  · -- single-word text: one segment starting at 0
    rw [if_pos (by simp), a4fAux_nil]
    have hsplit : pySplit (pyStrip (joinSp [w0])) = [w0] :=
      pySplit_pyStrip_joinSp [w0] (by simp) (by
        intro t ht
        rcases List.mem_singleton.mp ht with rfl
        exact hg0)
    refine ⟨?_, by simp, ?_⟩
    · intro s hs
      simp only [List.append_nil, List.mem_singleton] at hs
      subst hs
      refine ⟨?_, ?_, ?_⟩
      · show 1 ≤ (pySplit (pyStrip (joinSp [w0]))).length
        rw [hsplit]
        simp
      · show (pySplit (pyStrip (joinSp [w0]))).length ≤ maxW
        rw [hsplit]
        simpa using hmw
      · show (if 0 < 0 then (0:ℚ) + 1/5 else 0) +
            max (3/2) ((([w0] : List Str).length : ℚ) / (11/5)) -
          (if 0 < 0 then (0:ℚ) + 1/5 else 0) =
          max (3/2) (((pySplit (pyStrip (joinSp [w0]))).length : ℚ) / (11/5))
        rw [hsplit]
        norm_num
    · intro s hs
      simp only [List.append_nil, List.head?_cons, Option.some_inj] at hs
      subst hs
      constructor
      · intro _
        show (if 0 < 0 then (0:ℚ) + 1/5 else 0) = 0
        norm_num
      · intro hlen
        simp at hlen
  · -- at least two words: the gap is applied before the first emission
    rw [if_neg (by simp only [List.length_cons]; omega), List.nil_append]
    have h := a4fAux_spec maxW hmw (w0 :: r :: rs).length (r :: rs) 1 0
      [w0] 1 (by simp) le_rfl hmw le_rfl
      (by simp only [List.length_cons]; omega)
      (by intro t ht
          rcases List.mem_singleton.mp ht with rfl
          exact hg0)
      (by intro t ht
          refine hgood t ?_
          rw [hw]
          exact List.mem_cons_of_mem w0 ht)
    refine ⟨h.1, h.2.1, ?_⟩
    intro s hs
    constructor
    · intro hlen
      simp only [List.length_cons] at hlen
      omega
    · intro _
      rw [h.2.2 s hs]
      norm_num

/-- Witness for C8 (amended): on `"a b c d"` with `max_words = 3` every
emitted chunk's text holds at most `3` whitespace-words and lasts
`max(1.5, k/2.2)` for exactly its word count `k`, and since the text has more
than one word the first chunk starts at `0.2`. -/
theorem a4f_pacing_witness :
    (∀ s ∈ create_segments_from_a4f_result
        ['a', ' ', 'b', ' ', 'c', ' ', 'd'] 3,
      1 ≤ (pySplit s.text).length ∧ (pySplit s.text).length ≤ 3 ∧
      s.«end» - s.start =
        max (3/2) (((pySplit s.text).length : ℚ) / (11/5))) ∧
    (∀ s, (create_segments_from_a4f_result
        ['a', ' ', 'b', ' ', 'c', ' ', 'd'] 3).head? = some s →
      ((pySplit (pyStrip ['a', ' ', 'b', ' ', 'c', ' ', 'd'])).length = 1 →
        s.start = 0) ∧
      (1 < (pySplit (pyStrip ['a', ' ', 'b', ' ', 'c', ' ', 'd'])).length →
        s.start = 1/5)) := by
  have h := a4f_pacing ['a', ' ', 'b', ' ', 'c', ' ', 'd'] 3
    (by norm_num) (by decide)
  exact ⟨h.1, h.2.2⟩

end YTShorts
